import Mathlib

/-!
Verification development for the PubMedGPT retrieval-caching-ranking core.

The definitions below are a shallow embedding, translated from the Python
source files `app/textproc.py`, `app/cache.py`, `app/ranking.py`,
`app/synthesis.py` and `app/routers_pubmed.py`.  Python `str` is modelled
as Lean `String` (with helper operations on `List Char`), Python `int` as
`ℤ` (or `ℕ` where the value is manifestly non-negative), Python `float`
as `ℝ`, and Python dicts as insertion-ordered association lists, which is
the iteration/update semantics of CPython dicts.
-/

namespace PubMedGPT

/-! ## textproc.py -/

/-- Python `\s` for the ASCII range: the whitespace class used by
`re.sub(r"\s+", ...)`, `str.strip()` and the sentence splitter. -/
def pyIsSpace (c : Char) : Bool :=
  c == ' ' || c == '\t' || c == '\n' || c == '\r' || c == '\x0b' || c == '\x0c'

/-- One pass of `re.sub(r"\s+", " ", s)`: every maximal whitespace run
becomes a single space.  The flag records whether the previous character
was whitespace (i.e. we are inside a run already replaced). -/
def collapseWSAux : Bool → List Char → List Char
  | _, [] => []
  | inWS, c :: cs =>
    if pyIsSpace c then
      if inWS then collapseWSAux true cs else ' ' :: collapseWSAux true cs
    else c :: collapseWSAux false cs

/-- `re.sub(r"\s+", " ", s)`. -/
def collapseWS (l : List Char) : List Char := collapseWSAux false l

/-- `str.lstrip()` on the character list. -/
def lstripChars (l : List Char) : List Char := l.dropWhile pyIsSpace

/-- `str.rstrip()` on the character list. -/
def rstripChars (l : List Char) : List Char :=
  ((l.reverse).dropWhile pyIsSpace).reverse

/-- `str.strip()` on the character list. -/
def stripChars (l : List Char) : List Char := rstripChars (lstripChars l)

/-- `str.strip()`. -/
def pyStrip (s : String) : String := ⟨stripChars s.data⟩

/-- `normalize_whitespace`: collapse runs of whitespace and trim ends. -/
def normalize_whitespace (s : String) : String :=
  ⟨stripChars (collapseWS s.data)⟩

/-- Does this character end a sentence (the class `[.!?]` of `_SENT_SPLIT`)? -/
def isSentEnd (c : Char) : Bool := c == '.' || c == '!' || c == '?'

/-- `re.split(r'(?<=[.!?])\s+', text)`: a maximal whitespace run is a
separator exactly when the character immediately before it is one of
`.`, `!`, `?`.  Mode `false` is building the part `acc`; mode `true` is
consuming the remainder of a separator run (`acc` is then `[]`). -/
def sentSplitGo : Bool → List Char → List Char → List (List Char)
  | false, acc, [] => [acc]
  | true, _, [] => [[]]
  | false, acc, c :: cs =>
    if pyIsSpace c ∧ (acc.getLast?.any isSentEnd) then
      acc :: sentSplitGo true [] cs
    else
      sentSplitGo false (acc ++ [c]) cs
  | true, _, c :: cs =>
    if pyIsSpace c then sentSplitGo true [] cs
    else sentSplitGo false [c] cs

/-- The part list of the sentence-splitting regex. -/
def sentSplitAux (acc : List Char) (l : List Char) : List (List Char) :=
  sentSplitGo false acc l

/-- `split_sentences`: normalize, split on sentence-ending punctuation
followed by whitespace, strip each part and drop empty parts. -/
def split_sentences (text : String) : List String :=
  let t := normalize_whitespace text
  if t = "" then []
  else ((sentSplitAux [] t.data).map (fun p => pyStrip ⟨p⟩)).filter (fun p => p ≠ "")

/-- `" ".join(parts)` on character lists. -/
def joinSpaceChars : List (List Char) → List Char
  | [] => []
  | [x] => x
  | x :: y :: xs => x ++ ' ' :: joinSpaceChars (y :: xs)

/-- The chunk records `{text, start_char, end_char}` built by `chunk_by_chars`. -/
structure Chunk where
  text : String
  start_char : ℤ
  end_char : ℤ
deriving DecidableEq, Repr

/-- `" ".join(cur).strip()`: the text of a closing chunk. -/
def mkChunkText (cur : List String) : String :=
  pyStrip ⟨joinSpaceChars (cur.map String.data)⟩

/-- `chunk_text[-overlap:]` for `overlap > 0`: the last `n` characters. -/
def takeRightStr (n : ℕ) (s : String) : String :=
  ⟨s.data.drop (s.data.length - n)⟩

/-- The sentence-packing loop of `chunk_by_chars`.  Arguments mirror the
Python locals: remaining sentences, accumulated `chunks`, current `cur`,
`cur_len`, `start`, `pos`; the trailing flush corresponds to the
`if cur:` block after the loop. -/
def chunkLoop (max_chars overlap : ℤ) :
    List String → List Chunk → List String → ℕ → ℤ → ℕ → List Chunk
  | [], chunks, cur, _cur_len, start, _pos =>
    if cur.isEmpty then chunks
    else
      chunks ++ [⟨mkChunkText cur, start, start + (mkChunkText cur).length⟩]
  | s :: rest, chunks, cur, cur_len, start, pos =>
    let s_len := s.length + 1
    if ¬ cur.isEmpty ∧ ((cur_len : ℤ) + s_len > max_chars) then
      let chunk_text := mkChunkText cur
      let chunks' := chunks ++ [⟨chunk_text, start, start + chunk_text.length⟩]
      let tl : String :=
        if overlap > 0 ∧ ((chunk_text.length : ℤ) > overlap)
        then takeRightStr overlap.toNat chunk_text else ""
      let cur' : List String := if tl = "" then [] else [tl]
      chunkLoop max_chars overlap rest chunks' (cur' ++ [s])
        (tl.length + s_len) ((pos : ℤ) - tl.length) (pos + s_len)
    else
      chunkLoop max_chars overlap rest chunks (cur ++ [s])
        (cur_len + s_len) start (pos + s_len)

/-- `chunk_by_chars`: build chunks of about `max_chars` characters, aligned
to sentence boundaries, with a soft overlap carried between chunks. -/
def chunk_by_chars (text : String) (max_chars : ℤ := 1200) (overlap : ℤ := 120) :
    List Chunk :=
  if text = "" then []
  else chunkLoop max_chars overlap (split_sentences text) [] [] 0 0 0

/-- Is `c` a word character for the `\b\w+\b` tokenizer (ASCII range)? -/
def pyIsWord (c : Char) : Bool := c.isAlphanum || c == '_'

/-- The maximal `\w+` runs of the character list, lowercased; `acc` is the
word run currently being accumulated. -/
def tokenizeGo : List Char → List Char → List String
  | acc, [] => if acc.isEmpty then [] else [⟨acc.map Char.toLower⟩]
  | acc, c :: cs =>
    if pyIsWord c then tokenizeGo (acc ++ [c]) cs
    else if acc.isEmpty then tokenizeGo [] cs
    else ⟨acc.map Char.toLower⟩ :: tokenizeGo [] cs

/-- `tokenize_lower`: lowercased token stream for lexical scoring, the
matches of `\b\w+\b` (ASCII case folding, matching `str.lower()` on the
ASCII range). -/
def tokenize_lower (s : String) : List String := tokenizeGo [] s.data

/-! ## cache.py

A CPython dict is an insertion-ordered map; it is modelled as an
association list without duplicate keys.  `d[k] = v` updates the first
binding in place (keeping its position) or appends a new binding;
`d.pop(k, None)` removes the first binding; `min(d.items(), key=...)`
scans items left to right keeping the first minimum. -/

/-- `d.get(k)`. -/
def dictGet {K A : Type} [DecidableEq K] (d : List (K × A)) (k : K) : Option A :=
  (d.find? (fun kv => kv.1 = k)).map (·.2)

/-- `d[k] = a`. -/
def dictSet {K A : Type} [DecidableEq K] : List (K × A) → K → A → List (K × A)
  | [], k, a => [(k, a)]
  | kv :: rest, k, a =>
    if kv.1 = k then (k, a) :: rest else kv :: dictSet rest k a

/-- `d.pop(k, None)` (the resulting dict). -/
def dictPop {K A : Type} [DecidableEq K] : List (K × A) → K → List (K × A)
  | [], _ => []
  | kv :: rest, k => if kv.1 = k then rest else kv :: dictPop rest k

/-- `min(d.items(), key=lambda kv: kv[1])`: left-to-right scan keeping the
first strict minimum, exactly as Python's `min`. -/
def minBySnd {K : Type} : List (K × ℤ) → Option (K × ℤ)
  | [] => none
  | x :: xs => some (xs.foldl (fun best y => if y.2 < best.2 then y else best) x)

/-- The key list of a dict, in iteration order. -/
def keysOf {K A : Type} (d : List (K × A)) : List K := d.map Prod.fst

/-- The mutable state of a `TTLCache` instance: configuration plus the
`_store` (key ↦ (expires-at, value)) and `_touch` (key ↦ last-touched-at)
dicts.  Clock values (`time.time()`) are passed in explicitly. -/
structure TTLCache (K V : Type) where
  max_items : ℤ
  ttl : ℤ
  store : List (K × (ℤ × V))
  touch : List (K × ℤ)
deriving DecidableEq

/-- `TTLCache(max_items, ttl_seconds)`: freshly constructed cache. -/
def TTLCache.init (K V : Type) (max_items ttl_seconds : ℤ) : TTLCache K V :=
  ⟨max_items, ttl_seconds, [], []⟩

/-- `TTLCache.get(key)` at clock time `now`: returns the value (or `none`)
together with the updated state.  An entry whose expiry has passed is
removed and reported as a miss; a hit refreshes `_touch[key]`. -/
def TTLCache.get {K V : Type} [DecidableEq K] (s : TTLCache K V) (key : K)
    (now : ℤ) : Option V × TTLCache K V :=
  match dictGet s.store key with
  | none => (none, s)
  | some (exp, val) =>
    if exp < now then
      (none, { s with store := dictPop s.store key, touch := dictPop s.touch key })
    else
      (some val, { s with touch := dictSet s.touch key now })

/-- `TTLCache.set(key, val)` at clock time `now`: when the store is at or
above capacity, evict the least-recently-touched key (if `_touch` is
non-empty and the victim is present in `_store`), then insert. -/
def TTLCache.set {K V : Type} [DecidableEq K] (s : TTLCache K V) (key : K)
    (val : V) (now : ℤ) : TTLCache K V :=
  let s1 :=
    if (s.store.length : ℤ) ≥ s.max_items then
      match minBySnd s.touch with
      | none => s
      | some victim =>
        if (dictGet s.store victim.1).isSome then
          { s with store := dictPop s.store victim.1,
                   touch := dictPop s.touch victim.1 }
        else s
    else s
  { s1 with store := dictSet s1.store key (now + s1.ttl, val),
            touch := dictSet s1.touch key now }

/-- One client interaction with a cache: a `get` or a `set`, tagged with
the clock time at which it runs. -/
inductive CacheOp (K V : Type) where
  | get (key : K) (now : ℤ)
  | set (key : K) (val : V) (now : ℤ)
deriving DecidableEq

/-- Run a sequence of interactions against a cache state. -/
def runOps {K V : Type} [DecidableEq K] (s : TTLCache K V) :
    List (CacheOp K V) → TTLCache K V
  | [] => s
  | CacheOp.get k now :: rest => runOps (s.get k now).2 rest
  | CacheOp.set k v now :: rest => runOps (s.set k v now) rest

/-! ## ranking.py

Python floats are modelled as real numbers; `math.log` is `Real.log`. -/

/-- `min(x)` of a Python list (only used on non-empty lists). -/
noncomputable def listMin : List ℝ → ℝ
  | [] => 0
  | h :: t => t.foldl min h

/-- `max(x)` of a Python list (only used on non-empty lists). -/
noncomputable def listMax : List ℝ → ℝ
  | [] => 0
  | h :: t => t.foldl max h

/-- `tf[t]` for a tokenized document: the number of occurrences. -/
def tfCount (dt : List String) (t : String) : ℕ := dt.count t

/-- `df[t]`: the number of documents containing the term. -/
def dfCount (D : List (List String)) (t : String) : ℕ :=
  (D.filter (fun dt => decide (t ∈ dt))).length

/-- The bm25+-style idf of `bm25_scores`:
`log((N - n + 0.5) / (n + 0.5) + 1.0)`. -/
noncomputable def idfVal (N n : ℕ) : ℝ :=
  Real.log (((N : ℝ) - (n : ℝ) + 0.5) / ((n : ℝ) + 0.5) + 1.0)

/-- The per-document denominator `k1 * (1 - b + b * (dl / max(avgdl, 1e-9)))`. -/
noncomputable def bmDenom (k1 b dl avgdl : ℝ) : ℝ :=
  k1 * (1 - b + b * (dl / max avgdl 1e-9))

/-- The inner sum of `bm25_scores` for one document: over the query tokens
(with multiplicity), terms absent from the document are skipped. -/
noncomputable def bmDocScore (k1 : ℝ) (q_tokens : List String)
    (idf : String → ℝ) (denom : ℝ) (dt : List String) : ℝ :=
  (q_tokens.map (fun t =>
    if tfCount dt t = 0 then 0
    else idf t * ((tfCount dt t : ℝ) * (k1 + 1)) / ((tfCount dt t : ℝ) + denom))).sum

/-- `bm25_scores` on already-tokenized input (the body of the Python
function after its two tokenization lines). -/
noncomputable def bm25_scores_tokens (q_tokens : List String)
    (D_tokens : List (List String)) (k1 b : ℝ) : List ℝ :=
  if D_tokens.length = 0 then []
  else
    let N := D_tokens.length
    let avgdl : ℝ := ((D_tokens.map List.length).sum : ℕ) / ((max N 1 : ℕ) : ℝ)
    let idf : String → ℝ := fun t => idfVal N (dfCount D_tokens t)
    D_tokens.map (fun dt =>
      bmDocScore k1 q_tokens idf (bmDenom k1 b (dt.length : ℝ) avgdl) dt)

/-- `bm25_scores(query, docs, k1=1.2, b=0.75)`: minimal BM25 over word
tokens. -/
noncomputable def bm25_scores (query : String) (docs : List String)
    (k1 : ℝ := 1.2) (b : ℝ := 0.75) : List ℝ :=
  bm25_scores_tokens (tokenize_lower query) (docs.map tokenize_lower) k1 b

/-- `minmax`: min-max scale to `[0,1]`; an (almost) constant list maps to
all zeros. -/
noncomputable def minmax (x : List ℝ) : List ℝ :=
  if x = [] then x
  else
    let lo := listMin x
    let hi := listMax x
    if hi - lo < 1e-12 then x.map (fun _ => (0 : ℝ))
    else x.map (fun v => (v - lo) / (hi - lo))

/-- `hybrid_scores(query, docs, cos_scores, alpha)`: min-max-normalized
convex combination of BM25 and cosine scores (BM25 alone when no cosine
scores are supplied). -/
noncomputable def hybrid_scores (query : String) (docs : List String)
    (cos_scores : Option (List ℝ)) (alpha : ℝ := 0.5) : List ℝ :=
  let bm_n := minmax (bm25_scores query docs)
  match cos_scores with
  | none => bm_n
  | some cs =>
    List.zipWith (fun c b => alpha * c + (1 - alpha) * b) (minmax cs) bm_n

/-! ## synthesis.py (citation cleanup of `call_openai_json`) -/

/-- One entry of the model reply's `citations` array, after the
`str(... or "")` coercions: three strings. -/
structure Citation where
  pmid : String
  pmcid : String
  quote : String
deriving DecidableEq, Repr

/-- `str.upper()` (ASCII case folding). -/
def upperStr (s : String) : String := ⟨s.data.map Char.toUpper⟩

/-- Does `l` start with `p`? -/
def beginsWith : List Char → List Char → Bool
  | [], _ => true
  | _ :: _, [] => false
  | a :: as, b :: bs => a == b && beginsWith as bs

/-- The citation-cleaning loop of `call_openai_json`: strip the three
fields, keep a citation only if the quote is non-empty and at least one
identifier is non-empty, and drop a leading `PMC` prefix (case-insensitive)
from the pmcid. -/
def clean_citations (citations : List Citation) : List Citation :=
  citations.filterMap (fun citem =>
    let pmid := pyStrip citem.pmid
    let pmcid := pyStrip citem.pmcid
    let quote := pyStrip citem.quote
    if quote ≠ "" ∧ (pmid ≠ "" ∨ pmcid ≠ "") then
      some ⟨pmid,
            if beginsWith "PMC".data (upperStr pmcid).data
            then ⟨pmcid.data.drop 3⟩ else pmcid,
            quote⟩
    else none)

/-- One evidence chunk as supplied to the synthesis collaborator
(`build_messages` context items): identifiers plus snippet text. -/
structure Evidence where
  pmid : String
  pmcid : String
  text : String
deriving DecidableEq, Repr

/-- The grounding contract claimed by the specification for a kept
citation: it references an identifier present in the supplied evidence and
carries a quote that is a verbatim substring of that evidence chunk's
snippet text. -/
def citationGrounded (ev : List Evidence) (c : Citation) : Prop :=
  ∃ e ∈ ev,
    ((c.pmid ≠ "" ∧ c.pmid = e.pmid) ∨ (c.pmcid ≠ "" ∧ c.pmcid = e.pmcid)) ∧
    c.quote.data <:+: e.text.data

instance (ev : List Evidence) (c : Citation) : Decidable (citationGrounded ev c) := by
  unfold citationGrounded; infer_instance

/-! ## routers_pubmed.py (top-K selection of `pubmed_select`) -/

open Classical in
/-- The two selection lines of `pubmed_select`:
`order = sorted(range(len(corpus)), key=lambda i: scores[i], reverse=True)`
followed by `top_idxs = order[: max(1, min(top_k, len(order)))]`. -/
noncomputable def pubmed_top_idxs (corpus : List String) (scores : List ℝ)
    (top_k : ℤ) : List ℕ :=
  let order := (List.range corpus.length).insertionSort
    (fun i j => scores.getD j 0 ≤ scores.getD i 0)
  order.take (max 1 (min top_k (order.length : ℤ))).toNat

/-! # Theorems -/

/-! ## Generic facts about the chunking loop -/

theorem chunkLoop_pres (mc ov : ℤ) (P : Chunk → Prop)
    (hP : ∀ cur st, cur ≠ [] → P ⟨mkChunkText cur, st, st + (mkChunkText cur).length⟩) :
    ∀ (sents : List String) (chunks : List Chunk) (cur : List String)
      (cl : ℕ) (st : ℤ) (pos : ℕ),
      (∀ c ∈ chunks, P c) →
      ∀ c ∈ chunkLoop mc ov sents chunks cur cl st pos, P c := by
  intro sents
  induction sents with
  | nil =>
    intro chunks cur cl st pos h c hc
    simp only [chunkLoop] at hc
    by_cases hcur : cur.isEmpty
    · rw [if_pos hcur] at hc; exact h c hc
    · rw [if_neg hcur] at hc
      rcases List.mem_append.1 hc with h1 | h1
      · exact h c h1
      · have := List.mem_singleton.1 h1
        subst this
        exact hP cur st (by simpa [List.isEmpty_iff] using hcur)
  | cons s rest ih =>
    intro chunks cur cl st pos h c hc
    simp only [chunkLoop] at hc
    split at hc
    · next hcond =>
      refine ih _ _ _ _ _ ?_ c hc
      intro c' hc'
      rcases List.mem_append.1 hc' with h1 | h1
      · exact h c' h1
      · have := List.mem_singleton.1 h1
        subst this
        exact hP cur st (by simpa [List.isEmpty_iff] using hcond.1)
    · exact ih _ _ _ _ _ h c hc

theorem chunkLoop_ne_nil (mc ov : ℤ) :
    ∀ (sents : List String) (chunks : List Chunk) (cur : List String)
      (cl : ℕ) (st : ℤ) (pos : ℕ),
      cur ≠ [] ∨ sents ≠ [] →
      chunkLoop mc ov sents chunks cur cl st pos ≠ [] := by
  intro sents
  induction sents with
  | nil =>
    intro chunks cur cl st pos h
    have hcur : cur ≠ [] := by tauto
    simp only [chunkLoop]
    rw [if_neg (by simpa [List.isEmpty_iff] using hcur)]
    simp
  | cons s rest ih =>
    intro chunks cur cl st pos _
    simp only [chunkLoop]
    split
    · exact ih _ _ _ _ _ (Or.inl (by simp))
    · exact ih _ _ _ _ _ (Or.inl (by simp))

/-! ## Facts about stripping and sentence splitting -/

theorem rstripChars_eq (l : List Char) :
    rstripChars l = List.rdropWhile pyIsSpace l := rfl

theorem stripChars_ne_nil_of_mem {l : List Char} {c : Char} (hc : c ∈ l)
    (hcs : ¬ pyIsSpace c) : stripChars l ≠ [] := by
  unfold stripChars
  rw [rstripChars_eq]
  rw [Ne, List.rdropWhile_eq_nil_iff]
  intro hall
  have hmem : c ∈ lstripChars l := by
    unfold lstripChars
    rcases List.mem_append.1 (by rw [List.takeWhile_append_dropWhile]; exact hc :
        c ∈ l.takeWhile pyIsSpace ++ l.dropWhile pyIsSpace) with h1 | h1
    · exact absurd (List.mem_takeWhile_imp h1) hcs
    · exact h1
  exact hcs (hall c hmem)

theorem stripChars_first {l : List Char} {c : Char} {cs : List Char}
    (h : stripChars l = c :: cs) : ¬ pyIsSpace c := by
  have hpre : stripChars l <+: lstripChars l := by
    rw [stripChars, rstripChars_eq]; exact List.rdropWhile_prefix _ _
  obtain ⟨t', ht⟩ := hpre
  have hne : lstripChars l ≠ [] := by
    rw [← ht, h]; simp
  have hh : (lstripChars l).head hne = c := by
    have : lstripChars l = c :: (cs ++ t') := by rw [← ht, h]; simp
    simp [this]
  have h2 : pyIsSpace ((lstripChars l).head hne) = false :=
    List.head_dropWhile_not pyIsSpace (l := l) hne
  rw [hh] at h2
  simp [h2]

theorem sentSplitGo_head (cs : List Char) :
    ∀ acc, ∃ p rest, sentSplitGo false acc cs = p :: rest ∧ acc <+: p := by
  induction cs with
  | nil => exact fun acc => ⟨acc, [], rfl, List.prefix_refl _⟩
  | cons c cs ih =>
    intro acc
    simp only [sentSplitGo]
    split
    · exact ⟨acc, _, rfl, List.prefix_refl _⟩
    · obtain ⟨p, rest, heq, hpre⟩ := ih (acc ++ [c])
      exact ⟨p, rest, heq, (List.prefix_append acc [c]).trans hpre⟩

theorem split_sentences_ne_nil {text : String} (h : normalize_whitespace text ≠ "") :
    split_sentences text ≠ [] := by
  have hd : normalize_whitespace text = ⟨stripChars (collapseWS text.data)⟩ := rfl
  simp only [split_sentences]
  rw [if_neg h]
  have hdata : (normalize_whitespace text).data = stripChars (collapseWS text.data) := rfl
  obtain hnil | ⟨c, cs, hcc⟩ :
      (normalize_whitespace text).data = [] ∨
        ∃ c cs, (normalize_whitespace text).data = c :: cs := by
    cases hx : (normalize_whitespace text).data with
    | nil => exact Or.inl rfl
    | cons a as => exact Or.inr ⟨a, as, rfl⟩
  · exact absurd (by cases hnw : normalize_whitespace text with
      | mk d => simp only [hnw] at hnil ⊢; simp [hnil]) h
  · have hcsp : ¬ pyIsSpace c := stripChars_first (l := collapseWS text.data)
      (by rw [← hdata, hcc])
    have hstep : sentSplitAux [] (normalize_whitespace text).data =
        sentSplitGo false [c] cs := by
      rw [hcc]
      simp [sentSplitAux, sentSplitGo]
    obtain ⟨p, rest, heq, hpre⟩ := sentSplitGo_head cs [c]
    rw [hstep, heq]
    have hcp : c ∈ p := hpre.subset (by simp)
    have hne : pyStrip ⟨p⟩ ≠ "" := by
      intro hcon
      have : stripChars p = [] := by
        have := congrArg String.data hcon
        simpa [pyStrip] using this
      exact stripChars_ne_nil_of_mem hcp (by simpa using hcsp) this
    intro hcon
    have hmem : pyStrip ⟨p⟩ ∈
        (((p :: rest).map (fun q => pyStrip ⟨q⟩)).filter (fun q => q ≠ "")) := by
      refine List.mem_filter.2 ⟨List.mem_map.2 ⟨p, by simp, rfl⟩, by simpa using hne⟩
    rw [hcon] at hmem
    simp at hmem

/-- C8 (counterexample): `chunk_by_chars` applied to the non-empty text
`" "` returns the empty list, so a non-empty text does not always yield at
least one chunk. -/
theorem chunk_by_chars_nonempty_cex :
    (" " : String) ≠ "" ∧ chunk_by_chars " " 1200 120 = [] := by decide

/-- C8 (amended): for every `max_chars` and `overlap`, `chunk_by_chars`
returns the empty list on empty input, and returns at least one chunk on
any text that still contains a non-whitespace character after whitespace
normalization (a non-empty text consisting only of whitespace also yields
the empty list). -/
theorem chunk_by_chars_nonempty (text : String) (mc ov : ℤ)
    (h : normalize_whitespace text ≠ "") :
    chunk_by_chars "" mc ov = [] ∧ chunk_by_chars text mc ov ≠ [] := by
  constructor
  · simp [chunk_by_chars]
  · have hne : text ≠ "" := by
      intro hcon
      apply h
      rw [hcon]
      rfl
    unfold chunk_by_chars
    rw [if_neg hne]
    exact chunkLoop_ne_nil mc ov _ [] [] 0 0 0 (Or.inr (split_sentences_ne_nil h))

/-- C8 (witness): the amended statement evaluated at `"Hi."`. -/
theorem chunk_by_chars_nonempty_w :
    chunk_by_chars "" 10 0 = [] ∧ chunk_by_chars "Hi." 10 0 ≠ [] :=
  chunk_by_chars_nonempty "Hi." 10 0 (by decide)

/-- C9: every chunk produced by `chunk_by_chars` satisfies
`end_char = start_char + len(text)`. -/
theorem chunk_end_offset (text : String) (mc ov : ℤ) :
    ∀ c ∈ chunk_by_chars text mc ov,
      c.end_char = c.start_char + (c.text.length : ℤ) := by
  intro c hc
  unfold chunk_by_chars at hc
  split at hc
  · simp at hc
  · exact chunkLoop_pres mc ov
      (fun c => c.end_char = c.start_char + (c.text.length : ℤ))
      (fun cur st _ => rfl) _ [] [] 0 0 0 (by simp) c hc

/-- C9 (witness): the invariant evaluated on the single chunk of `"Hi."`. -/
theorem chunk_end_offset_w :
    (Chunk.mk "Hi." 0 3).end_char = (Chunk.mk "Hi." 0 3).start_char +
      ((Chunk.mk "Hi." 0 3).text.length : ℤ) :=
  chunk_end_offset "Hi." 10 0 ⟨"Hi.", 0, 3⟩ (by decide)

/-! ## C1: citation validation in the synthesis reply cleanup -/

/-- C1 (counterexample): a citation whose pmid appears nowhere in the
supplied evidence and whose quote is no substring of any snippet survives
the cleanup of `call_openai_json` untouched, so the cleanup does not
validate citations against the evidence. -/
theorem clean_citations_grounded_cex :
    clean_citations [⟨"2", "", "gamma"⟩] = [⟨"2", "", "gamma"⟩] ∧
    ¬ citationGrounded [⟨"1", "", "alpha beta"⟩] ⟨"2", "", "gamma"⟩ := by
  decide

/-- C1 (amended): the cleanup keeps exactly those reply citations whose
stripped quote is non-empty and whose stripped pmid or pmcid is non-empty,
and on the kept citations it strips all three fields and drops a leading
case-insensitive `PMC` prefix from the pmcid; no comparison with the
supplied evidence chunks is performed.  Stated as an exact equation:
`clean_citations` is the filter by the qualifying condition followed by
that field transformation. -/
theorem clean_citations_kept (citations : List Citation) :
    clean_citations citations =
      (citations.filter (fun r =>
        decide (pyStrip r.quote ≠ "" ∧
          (pyStrip r.pmid ≠ "" ∨ pyStrip r.pmcid ≠ "")))).map
        (fun r =>
          ⟨pyStrip r.pmid,
           if beginsWith "PMC".data (upperStr (pyStrip r.pmcid)).data
           then ⟨(pyStrip r.pmcid).data.drop 3⟩ else pyStrip r.pmcid,
           pyStrip r.quote⟩) := by
  induction citations with
  | nil => rfl
  | cons r rest ih =>
    by_cases hc : pyStrip r.quote ≠ "" ∧ (pyStrip r.pmid ≠ "" ∨ pyStrip r.pmcid ≠ "")
    · have hd : decide (pyStrip r.quote ≠ "" ∧
          (pyStrip r.pmid ≠ "" ∨ pyStrip r.pmcid ≠ "")) = true := by
        simpa using hc
      simp only [clean_citations, List.filterMap_cons, List.filter_cons,
        if_pos hc, hd, if_true, List.map_cons] at ih ⊢
      rw [ih]
    · have hd : decide (pyStrip r.quote ≠ "" ∧
          (pyStrip r.pmid ≠ "" ∨ pyStrip r.pmcid ≠ "")) = false := by
        simpa using hc
      simp only [clean_citations, List.filterMap_cons, List.filter_cons,
        if_neg hc, hd, Bool.false_eq_true, if_false] at ih ⊢
      exact ih

/-! ## C10: top-K selection of `pubmed_select` -/

/-- C10: on a non-empty corpus the top-K selection always returns at least
one index, and for `top_k ≥ 1` never more than `min(top_k, corpus size)`. -/
theorem pubmed_top_idxs_count (corpus : List String) (scores : List ℝ)
    (top_k : ℤ) (h : corpus ≠ []) :
    1 ≤ (pubmed_top_idxs corpus scores top_k).length ∧
    (1 ≤ top_k →
      ((pubmed_top_idxs corpus scores top_k).length : ℤ) ≤
        min top_k (corpus.length : ℤ)) := by
  have hn : 0 < corpus.length := List.length_pos.2 h
  simp only [pubmed_top_idxs, List.length_take, List.length_insertionSort,
    List.length_range]
  constructor
  · omega
  · intro hk
    omega

/-- C10 (witness): the bound evaluated on a one-document corpus. -/
theorem pubmed_top_idxs_count_w :
    1 ≤ (pubmed_top_idxs ["a"] [0] 3).length ∧
    (1 ≤ (3 : ℤ) →
      ((pubmed_top_idxs ["a"] [0] 3).length : ℤ) ≤
        min 3 ((["a"] : List String).length : ℤ)) :=
  pubmed_top_idxs_count ["a"] [0] 3 (by simp)

/-! ## C7: hybrid blend endpoints -/

theorem zipWith_alpha_zero :
    ∀ (xs ys : List ℝ), xs.length = ys.length →
      List.zipWith (fun c b => (0 : ℝ) * c + (1 - 0) * b) xs ys = ys := by
  intro xs
  induction xs with
  | nil =>
    intro ys h
    have h2 : ys.length = 0 := by simpa using h.symm
    rw [List.length_eq_zero] at h2
    simp [h2]
  | cons x xs ih =>
    intro ys h
    cases ys with
    | nil => simp at h
    | cons y ys =>
      simp only [List.zipWith_cons_cons, List.cons.injEq]
      exact ⟨by ring, ih ys (by simpa using h)⟩

theorem zipWith_alpha_one :
    ∀ (xs ys : List ℝ), xs.length = ys.length →
      List.zipWith (fun c b => (1 : ℝ) * c + (1 - 1) * b) xs ys = xs := by
  intro xs
  induction xs with
  | nil => intro ys h; simp
  | cons x xs ih =>
    intro ys h
    cases ys with
    | nil => simp at h
    | cons y ys =>
      simp only [List.zipWith_cons_cons, List.cons.injEq]
      exact ⟨by ring, ih ys (by simpa using h)⟩

theorem minmax_length (x : List ℝ) : (minmax x).length = x.length := by
  simp only [minmax]
  split_ifs <;> simp

theorem bm25_scores_length (query : String) (docs : List String) (k1 b : ℝ) :
    (bm25_scores query docs k1 b).length = docs.length := by
  unfold bm25_scores bm25_scores_tokens
  split
  · next h => simp at h; simp [h]
  · simp

/-- C7: the hybrid blend equals the normalized BM25 list when no semantic
scores are supplied (for any `alpha`); with an equal-length semantic list
it equals the normalized BM25 list at `alpha = 0` and the normalized
semantic list at `alpha = 1`. -/
theorem hybrid_scores_endpoints (query : String) (docs : List String)
    (cs : List ℝ) (h : cs.length = docs.length) :
    (∀ a : ℝ, hybrid_scores query docs none a = minmax (bm25_scores query docs)) ∧
    hybrid_scores query docs (some cs) 0 = minmax (bm25_scores query docs) ∧
    hybrid_scores query docs (some cs) 1 = minmax cs := by
  refine ⟨fun a => rfl, ?_, ?_⟩
  · exact zipWith_alpha_zero _ _
      (by rw [minmax_length, minmax_length, h, bm25_scores_length])
  · exact zipWith_alpha_one _ _
      (by rw [minmax_length, minmax_length, h, bm25_scores_length])

/-- C7 (witness): the endpoint identities evaluated on a one-document
corpus with one semantic score. -/
theorem hybrid_scores_endpoints_w :
    (∀ a : ℝ, hybrid_scores "q" ["a"] none a = minmax (bm25_scores "q" ["a"])) ∧
    hybrid_scores "q" ["a"] (some [(1 : ℝ) / 2]) 0 = minmax (bm25_scores "q" ["a"]) ∧
    hybrid_scores "q" ["a"] (some [(1 : ℝ) / 2]) 1 = minmax [(1 : ℝ) / 2] :=
  hybrid_scores_endpoints "q" ["a"] [(1 : ℝ) / 2] (by simp)

/-! ## Dict and cache lemmas -/

theorem keysOf_nil {K A : Type} : keysOf ([] : List (K × A)) = [] := rfl

theorem keysOf_cons {K A : Type} (kv : K × A) (d : List (K × A)) :
    keysOf (kv :: d) = kv.1 :: keysOf d := rfl

theorem keysOf_length {K A : Type} (d : List (K × A)) :
    (keysOf d).length = d.length := List.length_map d Prod.fst

theorem keysOf_dictSet {K A : Type} [DecidableEq K] (d : List (K × A))
    (k : K) (a : A) :
    keysOf (dictSet d k a) =
      if k ∈ keysOf d then keysOf d else keysOf d ++ [k] := by
  induction d with
  | nil => simp [dictSet, keysOf]
  | cons kv rest ih =>
    simp only [dictSet]
    by_cases hk : kv.1 = k
    · rw [if_pos hk, keysOf_cons, keysOf_cons]
      rw [if_pos (by simp [hk])]
      simp [hk]
    · rw [if_neg hk, keysOf_cons, keysOf_cons, ih]
      by_cases hmem : k ∈ keysOf rest
      · rw [if_pos hmem, if_pos (by simp [hmem])]
      · rw [if_neg hmem, if_neg (by simp [hmem]; exact fun hcon => hk hcon.symm)]
        simp

theorem keysOf_dictPop {K A : Type} [DecidableEq K] (d : List (K × A)) (k : K) :
    keysOf (dictPop d k) = (keysOf d).erase k := by
  induction d with
  | nil => simp [dictPop, keysOf]
  | cons kv rest ih =>
    simp only [dictPop]
    by_cases hk : kv.1 = k
    · rw [if_pos hk, keysOf_cons, hk, List.erase_cons_head]
    · rw [if_neg hk, keysOf_cons, keysOf_cons, ih,
        List.erase_cons_tail (by simpa using hk)]

theorem dictGet_isSome {K A : Type} [DecidableEq K] (d : List (K × A)) (k : K) :
    (dictGet d k).isSome ↔ k ∈ keysOf d := by
  unfold dictGet
  rw [Option.isSome_map', List.find?_isSome]
  constructor
  · rintro ⟨kv, hmem, hp⟩
    exact List.mem_map.2 ⟨kv, hmem, by simpa using hp⟩
  · intro h
    obtain ⟨kv, hmem, hk⟩ := List.mem_map.1 h
    exact ⟨kv, hmem, by simpa using hk⟩

theorem dictGet_dictSet_self {K A : Type} [DecidableEq K] (d : List (K × A))
    (k : K) (a : A) : dictGet (dictSet d k a) k = some a := by
  induction d with
  | nil => simp [dictSet, dictGet, List.find?]
  | cons kv rest ih =>
    simp only [dictSet]
    by_cases hk : kv.1 = k
    · rw [if_pos hk]; simp [dictGet, List.find?]
    · rw [if_neg hk]
      simpa [dictGet, List.find?, hk] using ih

theorem nodup_keysOf_dictSet {K A : Type} [DecidableEq K] {d : List (K × A)}
    (k : K) (a : A) (h : (keysOf d).Nodup) : (keysOf (dictSet d k a)).Nodup := by
  rw [keysOf_dictSet]
  split
  · exact h
  · next hmem => simp [List.nodup_append, h, hmem]

theorem nodup_keysOf_dictPop {K A : Type} [DecidableEq K] {d : List (K × A)}
    (k : K) (h : (keysOf d).Nodup) : (keysOf (dictPop d k)).Nodup := by
  rw [keysOf_dictPop]
  exact h.erase k

theorem minBySnd_foldl_spec {K : Type} :
    ∀ (ys : List (K × ℤ)) (y : K × ℤ),
      (ys.foldl (fun best z => if z.2 < best.2 then z else best) y) ∈ y :: ys ∧
      ∀ p ∈ y :: ys,
        (ys.foldl (fun best z => if z.2 < best.2 then z else best) y).2 ≤ p.2 := by
  intro ys
  induction ys with
  | nil => intro y; simp
  | cons z zs ih =>
    intro y
    have hstep : (z :: zs).foldl (fun best w => if w.2 < best.2 then w else best) y =
        zs.foldl (fun best w => if w.2 < best.2 then w else best)
          (if z.2 < y.2 then z else y) := rfl
    obtain ⟨hmem, hmin⟩ := ih (if z.2 < y.2 then z else y)
    constructor
    · rw [hstep]
      rcases List.mem_cons.1 hmem with h1 | h1
      · rw [h1]
        split <;> simp
      · simp [h1]
    · intro p hp
      rw [hstep]
      have hle : (zs.foldl (fun best w => if w.2 < best.2 then w else best)
          (if z.2 < y.2 then z else y)).2 ≤ (if z.2 < y.2 then z else y).2 :=
        hmin _ (by simp)
      rcases List.mem_cons.1 hp with h1 | h1
      · subst h1
        refine hle.trans ?_
        split <;> omega
      · rcases List.mem_cons.1 h1 with h2 | h2
        · subst h2
          refine hle.trans ?_
          split <;> omega
        · exact hmin p (by simp [h2])

theorem minBySnd_spec {K : Type} (l : List (K × ℤ)) (x : K × ℤ)
    (h : minBySnd l = some x) : x ∈ l ∧ ∀ p ∈ l, x.2 ≤ p.2 := by
  cases l with
  | nil => simp [minBySnd] at h
  | cons y ys =>
    simp only [minBySnd, Option.some.injEq] at h
    obtain ⟨hmem, hmin⟩ := minBySnd_foldl_spec ys y
    rw [h] at hmem hmin
    exact ⟨hmem, hmin⟩

theorem minBySnd_eq_none {K : Type} (l : List (K × ℤ)) :
    minBySnd l = none ↔ l = [] := by
  cases l <;> simp [minBySnd]

/-- The state invariant of a `TTLCache`: `_store` and `_touch` track the
same keys in the same order, the keys are distinct, and the store respects
the capacity. -/
def CacheInv {K V : Type} (s : TTLCache K V) : Prop :=
  keysOf s.store = keysOf s.touch ∧ (keysOf s.store).Nodup ∧
    (s.store.length : ℤ) ≤ s.max_items

theorem cacheInv_init (K V : Type) (m t : ℤ) (hm : 0 ≤ m) :
    CacheInv (TTLCache.init K V m t) := by
  refine ⟨rfl, by simp [TTLCache.init, keysOf], ?_⟩
  simpa [TTLCache.init] using hm

theorem get_fields {K V : Type} [DecidableEq K] (s : TTLCache K V) (k : K)
    (now : ℤ) :
    ((s.get k now).2.max_items = s.max_items) ∧ ((s.get k now).2.ttl = s.ttl) := by
  cases hdg : dictGet s.store k with
  | none => simp [TTLCache.get, hdg]
  | some item =>
    obtain ⟨exp, val⟩ := item
    simp only [TTLCache.get, hdg]
    split <;> exact ⟨rfl, rfl⟩

theorem set_fields {K V : Type} [DecidableEq K] (s : TTLCache K V) (k : K)
    (v : V) (now : ℤ) :
    ((s.set k v now).max_items = s.max_items) ∧ ((s.set k v now).ttl = s.ttl) := by
  simp only [TTLCache.set]
  by_cases hcap : (s.store.length : ℤ) ≥ s.max_items
  · rw [if_pos hcap]
    cases hmin : minBySnd s.touch with
    | none => exact ⟨rfl, rfl⟩
    | some x =>
      simp only
      split <;> exact ⟨rfl, rfl⟩
  · rw [if_neg hcap]
    exact ⟨rfl, rfl⟩

theorem cacheInv_get {K V : Type} [DecidableEq K] (s : TTLCache K V) (k : K)
    (now : ℤ) (h : CacheInv s) : CacheInv (s.get k now).2 := by
  obtain ⟨hkeys, hnd, hlen⟩ := h
  cases hdg : dictGet s.store k with
  | none => simp only [TTLCache.get, hdg]; exact ⟨hkeys, hnd, hlen⟩
  | some item =>
    obtain ⟨exp, val⟩ := item
    simp only [TTLCache.get, hdg]
    by_cases hexp : exp < now
    · rw [if_pos hexp]
      dsimp only
      refine ⟨?_, nodup_keysOf_dictPop k hnd, ?_⟩
      · rw [keysOf_dictPop, keysOf_dictPop, hkeys]
      · show ((dictPop s.store k).length : ℤ) ≤ s.max_items
        have : (dictPop s.store k).length ≤ s.store.length := by
          rw [← keysOf_length, ← keysOf_length (d := s.store), keysOf_dictPop]
          exact List.length_erase_le _ _
        omega
    · rw [if_neg hexp]
      dsimp only
      refine ⟨?_, hnd, hlen⟩
      rw [keysOf_dictSet]
      have hk : k ∈ keysOf s.touch := by
        rw [← hkeys, ← dictGet_isSome, hdg]; rfl
      rw [if_pos hk, hkeys]

theorem cacheInv_set {K V : Type} [DecidableEq K] (s : TTLCache K V) (k : K)
    (v : V) (now : ℤ) (hm : 1 ≤ s.max_items) (h : CacheInv s) :
    CacheInv (s.set k v now) := by
  obtain ⟨hkeys, hnd, hlen⟩ := h
  unfold TTLCache.set
  by_cases hcap : (s.store.length : ℤ) ≥ s.max_items
  · rw [if_pos hcap]
    have hstne : s.store ≠ [] := by
      intro hcon
      rw [hcon] at hcap
      simp at hcap
      omega
    have htne : s.touch ≠ [] := by
      intro hcon
      apply hstne
      have : keysOf s.store = [] := by rw [hkeys, hcon]; rfl
      cases hs : s.store with
      | nil => rfl
      | cons a b => rw [hs] at this; simp [keysOf_cons] at this
    cases hmin : minBySnd s.touch with
    | none => exact absurd ((minBySnd_eq_none _).1 hmin) htne
    | some x =>
      simp only
      have hxmem := (minBySnd_spec _ _ hmin).1
      have hxkey : x.1 ∈ keysOf s.store := by
        rw [hkeys]
        exact List.mem_map.2 ⟨x, hxmem, rfl⟩
      rw [if_pos ((dictGet_isSome _ _).2 hxkey)]
      have hnd1 := nodup_keysOf_dictPop (d := s.store) x.1 hnd
      have hlen1 : (dictPop s.store x.1).length = s.store.length - 1 := by
        rw [← keysOf_length, keysOf_dictPop, List.length_erase_of_mem hxkey,
          keysOf_length]
      have hslen : 1 ≤ s.store.length := by
        cases hs : s.store with
        | nil => exact absurd hs hstne
        | cons a b => simp
      refine ⟨?_, nodup_keysOf_dictSet k _ hnd1, ?_⟩
      · rw [keysOf_dictSet, keysOf_dictSet, keysOf_dictPop, keysOf_dictPop, hkeys]
      · rw [← keysOf_length, keysOf_dictSet]
        split
        · rw [keysOf_length, hlen1]
          push_cast
          omega
        · rw [List.length_append, keysOf_length, hlen1]
          simp only [List.length_singleton]
          omega
  · rw [if_neg hcap]
    refine ⟨?_, nodup_keysOf_dictSet k _ hnd, ?_⟩
    · rw [keysOf_dictSet, keysOf_dictSet, hkeys]
    · rw [← keysOf_length, keysOf_dictSet]
      split
      · rw [keysOf_length]; exact hlen
      · rw [List.length_append, keysOf_length]
        simp only [List.length_singleton]
        push_cast
        push_cast at hcap
        omega

theorem cacheInv_runOps {K V : Type} [DecidableEq K] :
    ∀ (ops : List (CacheOp K V)) (s : TTLCache K V),
      1 ≤ s.max_items → CacheInv s →
      CacheInv (runOps s ops) ∧ (runOps s ops).max_items = s.max_items := by
  intro ops
  induction ops with
  | nil => exact fun s _ h => ⟨h, rfl⟩
  | cons op rest ih =>
    intro s hm h
    cases op with
    | get k now =>
      simp only [runOps]
      have h1 := cacheInv_get s k now h
      have hf := (get_fields s k now).1
      obtain ⟨h2, h3⟩ := ih (s.get k now).2 (by rw [hf]; exact hm) h1
      exact ⟨h2, by rw [h3, hf]⟩
    | set k v now =>
      simp only [runOps]
      have h1 := cacheInv_set s k v now hm h
      have hf := (set_fields s k v now).1
      obtain ⟨h2, h3⟩ := ih (s.set k v now) (by rw [hf]; exact hm) h1
      exact ⟨h2, by rw [h3, hf]⟩

theorem set_removed_is_victim {K V : Type} [DecidableEq K] (s : TTLCache K V)
    (key : K) (v : V) (now : ℤ) (k : K) (h : CacheInv s)
    (hk : k ∈ keysOf s.store) (hk' : k ∉ keysOf (s.set key v now).store) :
    ∃ tv, minBySnd s.touch = some (k, tv) ∧ ∀ p ∈ s.touch, tv ≤ p.2 := by
  obtain ⟨hkeys, hnd, _⟩ := h
  unfold TTLCache.set at hk'
  by_cases hcap : (s.store.length : ℤ) ≥ s.max_items
  · rw [if_pos hcap] at hk'
    cases hmin : minBySnd s.touch with
    | none =>
      rw [hmin] at hk'
      rw [keysOf_dictSet] at hk'
      split at hk' <;> simp [hk] at hk'
    | some x =>
      rw [hmin] at hk'
      simp only at hk'
      obtain ⟨hxmem, hxmin⟩ := minBySnd_spec _ _ hmin
      have hxkey : x.1 ∈ keysOf s.store := by
        rw [hkeys]
        exact List.mem_map.2 ⟨x, hxmem, rfl⟩
      rw [if_pos ((dictGet_isSome _ _).2 hxkey)] at hk'
      rw [keysOf_dictSet, keysOf_dictPop] at hk'
      have hkx : k ∉ (keysOf s.store).erase x.1 := by
        intro hcon
        apply hk'
        split <;> simp [hcon]
      have hkvic : k = x.1 := by
        by_contra hne
        exact hkx (((List.Nodup.mem_erase_iff hnd).2 ⟨hne, hk⟩))
      subst hkvic
      exact ⟨x.2, rfl, hxmin⟩
  · rw [if_neg hcap] at hk'
    rw [keysOf_dictSet] at hk'
    split at hk' <;> simp [hk] at hk'

/-- C2 (counterexample): a cache constructed with `max_items = 0` accepts
an entry anyway (the eviction scan finds no victim in the empty `_touch`
dict), so after one `set` the store holds more entries than `max_items`. -/
theorem ttlcache_capacity_cex :
    (runOps (TTLCache.init ℕ ℕ 0 5) [CacheOp.set 0 7 0]).store.length = 1 ∧
    ¬ (((runOps (TTLCache.init ℕ ℕ 0 5) [CacheOp.set 0 7 0]).store.length : ℤ) ≤
        (TTLCache.init ℕ ℕ 0 5).max_items) := by
  decide

/-- C2 (amended): for a cache with `max_items ≥ 1` starting empty, after
any finite sequence of `set` and `get` calls the store never holds more
than `max_items` entries; moreover any entry a further `set` removes
(besides overwriting its own key) is exactly the `min`-by-`last_touched_at`
choice over the tracked entries — the oldest, first on ties — so each
`set` evicts at most one entry. -/
theorem ttlcache_capacity (max_items ttl : ℤ) (hm : 1 ≤ max_items)
    (ops : List (CacheOp ℕ ℕ)) :
    ((runOps (TTLCache.init ℕ ℕ max_items ttl) ops).store.length : ℤ) ≤ max_items ∧
    (∀ key v now k,
      k ∈ keysOf (runOps (TTLCache.init ℕ ℕ max_items ttl) ops).store →
      k ∉ keysOf ((runOps (TTLCache.init ℕ ℕ max_items ttl) ops).set key v now).store →
      ∃ tv,
        minBySnd (runOps (TTLCache.init ℕ ℕ max_items ttl) ops).touch = some (k, tv) ∧
        ∀ p ∈ (runOps (TTLCache.init ℕ ℕ max_items ttl) ops).touch, tv ≤ p.2) := by
  obtain ⟨hinv, hmax⟩ := cacheInv_runOps ops (TTLCache.init ℕ ℕ max_items ttl)
    (by simpa [TTLCache.init] using hm)
    (cacheInv_init ℕ ℕ max_items ttl (by omega))
  constructor
  · have := hinv.2.2
    rwa [hmax] at this
  · intro key v now k hk hk'
    exact set_removed_is_victim _ key v now k hinv hk hk'

/-- C2 (witness): the capacity bound evaluated for a one-slot cache after
two inserts. -/
theorem ttlcache_capacity_w :
    (((runOps (TTLCache.init ℕ ℕ 1 5) [CacheOp.set 0 7 0, CacheOp.set 1 8 1]).store.length : ℤ) ≤ 1) ∧
    (∀ key v now k,
      k ∈ keysOf (runOps (TTLCache.init ℕ ℕ 1 5) [CacheOp.set 0 7 0, CacheOp.set 1 8 1]).store →
      k ∉ keysOf ((runOps (TTLCache.init ℕ ℕ 1 5) [CacheOp.set 0 7 0, CacheOp.set 1 8 1]).set key v now).store →
      ∃ tv,
        minBySnd (runOps (TTLCache.init ℕ ℕ 1 5) [CacheOp.set 0 7 0, CacheOp.set 1 8 1]).touch = some (k, tv) ∧
        ∀ p ∈ (runOps (TTLCache.init ℕ ℕ 1 5) [CacheOp.set 0 7 0, CacheOp.set 1 8 1]).touch, tv ≤ p.2) :=
  ttlcache_capacity 1 5 (by omega) [CacheOp.set 0 7 0, CacheOp.set 1 8 1]

theorem set_store_eq {K V : Type} [DecidableEq K] (s : TTLCache K V) (k : K)
    (v : V) (now : ℤ) :
    ∃ d : List (K × (ℤ × V)),
      (s.set k v now).store = dictSet d k (now + s.ttl, v) ∧
      ((keysOf s.store).Nodup → (keysOf d).Nodup) := by
  unfold TTLCache.set
  by_cases hcap : (s.store.length : ℤ) ≥ s.max_items
  · rw [if_pos hcap]
    cases hmin : minBySnd s.touch with
    | none => exact ⟨s.store, rfl, id⟩
    | some x =>
      simp only
      by_cases hg : (dictGet s.store x.1).isSome
      · rw [if_pos hg]
        exact ⟨dictPop s.store x.1, rfl, fun h => nodup_keysOf_dictPop _ h⟩
      · rw [if_neg hg]
        exact ⟨s.store, rfl, id⟩
  · rw [if_neg hcap]
    exact ⟨s.store, rfl, id⟩

/-- C5: on any cache state with distinct store keys, a `get key` at time
`t'` after `set key val` at time `t` returns `val` as long as
`t' < t + ttl` (the TTL has not yet elapsed), and once the TTL has elapsed
(`t' > t + ttl`) it misses and the entry is removed from the store. -/
theorem ttlcache_get_after_set {K V : Type} [DecidableEq K] (s : TTLCache K V)
    (key : K) (val : V) (t t' : ℤ) (hnd : (keysOf s.store).Nodup) :
    (t' < t + s.ttl → ((s.set key val t).get key t').1 = some val) ∧
    (t + s.ttl < t' →
      ((s.set key val t).get key t').1 = none ∧
      key ∉ keysOf ((s.set key val t).get key t').2.store) := by
  obtain ⟨d, hst, hdn⟩ := set_store_eq s key val t
  have hget : dictGet (s.set key val t).store key = some (t + s.ttl, val) := by
    rw [hst]
    exact dictGet_dictSet_self d key _
  constructor
  · intro hlt
    simp only [TTLCache.get, hget]
    rw [if_neg (by omega : ¬ (t + s.ttl < t'))]
  · intro hgt
    simp only [TTLCache.get, hget]
    rw [if_pos hgt]
    refine ⟨rfl, ?_⟩
    show key ∉ keysOf (dictPop (s.set key val t).store key)
    rw [keysOf_dictPop]
    have hnd2 : (keysOf (s.set key val t).store).Nodup := by
      rw [hst]
      exact nodup_keysOf_dictSet _ _ (hdn hnd)
    exact hnd2.not_mem_erase

/-- C5 (witness): a fresh cache with TTL 100, `set` at time 0: `get` at
time 50 hits with the value, `get` at time 150 misses and drops the key. -/
theorem ttlcache_get_after_set_w :
    ((((TTLCache.init ℕ ℕ 10 100).set 1 42 0).get 1 50).1 = some 42) ∧
    ((((TTLCache.init ℕ ℕ 10 100).set 1 42 0).get 1 150).1 = none ∧
      1 ∉ keysOf (((TTLCache.init ℕ ℕ 10 100).set 1 42 0).get 1 150).2.store) :=
  ⟨(ttlcache_get_after_set (TTLCache.init ℕ ℕ 10 100) 1 42 0 50 (by decide)).1
      (by decide),
   (ttlcache_get_after_set (TTLCache.init ℕ ℕ 10 100) 1 42 0 150 (by decide)).2
      (by decide)⟩

/-! ## C3: chunk length bound -/

theorem stripChars_length_le (l : List Char) :
    (stripChars l).length ≤ l.length := by
  refine le_trans ?_ (List.Sublist.length_le (List.dropWhile_sublist pyIsSpace))
  rw [stripChars, rstripChars_eq]
  exact List.IsPrefix.length_le (List.rdropWhile_prefix _ _)

theorem length_pyStrip (s : String) : (pyStrip s).length = (stripChars s.data).length := rfl

theorem mkChunkText_length_le (cur : List String) :
    (mkChunkText cur).length ≤ (joinSpaceChars (cur.map String.data)).length := by
  rw [mkChunkText, length_pyStrip]
  exact stripChars_length_le _

theorem joinSpace_concat : ∀ (xs : List (List Char)) (y : List Char), xs ≠ [] →
    joinSpaceChars (xs ++ [y]) = joinSpaceChars xs ++ ' ' :: y := by
  intro xs
  induction xs with
  | nil => intro y h; exact absurd rfl h
  | cons x xs ih =>
    intro y _
    cases xs with
    | nil => rfl
    | cons x' xs' =>
      have h1 := ih y (by simp)
      show x ++ ' ' :: joinSpaceChars ((x' :: xs') ++ [y]) =
        (x ++ ' ' :: joinSpaceChars (x' :: xs')) ++ ' ' :: y
      rw [h1]
      simp

theorem takeRightStr_length {n : ℕ} {s : String} (h : n ≤ s.length) :
    (takeRightStr n s).length = n := by
  show (s.data.drop (s.data.length - n)).length = n
  rw [List.length_drop]
  have : s.length = s.data.length := rfl
  omega

theorem takeRightStr_ne_empty {n : ℕ} {s : String} (h1 : 1 ≤ n) (h2 : n ≤ s.length) :
    takeRightStr n s ≠ "" := by
  intro hcon
  have := congrArg String.length hcon
  rw [takeRightStr_length h2] at this
  simp at this
  omega

theorem chunkLoop_len (mc ov : ℤ) (S : List String) :
    ∀ (sents : List String) (chunks : List Chunk) (cur : List String)
      (cl : ℕ) (st : ℤ) (pos : ℕ),
      (∀ s ∈ sents, s ∈ S) →
      (∀ c ∈ chunks, (c.text.length : ℤ) ≤ mc ∨
        ∃ s ∈ S, (c.text.length : ℤ) ≤ max ov 0 + 1 + (s.length : ℤ)) →
      (cur = [] ∨
        ((joinSpaceChars (cur.map String.data)).length ≤ cl ∧
          ((cl : ℤ) ≤ mc ∨
            ∃ s ∈ S, ((mkChunkText cur).length : ℤ) ≤ max ov 0 + 1 + (s.length : ℤ)))) →
      ∀ c ∈ chunkLoop mc ov sents chunks cur cl st pos,
        (c.text.length : ℤ) ≤ mc ∨
        ∃ s ∈ S, (c.text.length : ℤ) ≤ max ov 0 + 1 + (s.length : ℤ) := by
  intro sents
  induction sents with
  | nil =>
    intro chunks cur cl st pos _ hchunks hcur c hc
    simp only [chunkLoop] at hc
    split at hc
    · exact hchunks c hc
    · next hne =>
      rcases List.mem_append.1 hc with h1 | h1
      · exact hchunks c h1
      · have := List.mem_singleton.1 h1
        subst this
        rcases hcur with hcur | ⟨hjoin, hcl | ⟨s, hs, hlen⟩⟩
        · rw [hcur] at hne; simp at hne
        · left
          show ((mkChunkText cur).length : ℤ) ≤ mc
          have h2 := mkChunkText_length_le cur
          omega
        · exact Or.inr ⟨s, hs, hlen⟩
  | cons s rest ih =>
    intro chunks cur cl st pos hsents hchunks hcur c hc
    have hsS : s ∈ S := hsents s (by simp)
    have hrest : ∀ u ∈ rest, u ∈ S := fun u hu => hsents u (by simp [hu])
    have hjs : (joinSpaceChars ([s].map String.data)).length = s.length := rfl
    have hmks := mkChunkText_length_le [s]
    rw [hjs] at hmks
    simp only [chunkLoop] at hc
    split at hc
    · next hcond =>
      have hclosed : ∀ c' ∈ chunks ++
          [⟨mkChunkText cur, st, st + ((mkChunkText cur).length : ℤ)⟩],
          (c'.text.length : ℤ) ≤ mc ∨
          ∃ u ∈ S, (c'.text.length : ℤ) ≤ max ov 0 + 1 + (u.length : ℤ) := by
        intro c' hc'
        rcases List.mem_append.1 hc' with h1 | h1
        · exact hchunks c' h1
        · have := List.mem_singleton.1 h1
          subst this
          rcases hcur with hcur | ⟨hjoin, hcl | ⟨u, hu, hlen⟩⟩
          · rw [hcur] at hcond; simp at hcond
          · left
            show ((mkChunkText cur).length : ℤ) ≤ mc
            have h2 := mkChunkText_length_le cur
            omega
          · exact Or.inr ⟨u, hu, hlen⟩
      by_cases htl : ov > 0 ∧ (((mkChunkText cur).length : ℤ) > ov)
      · -- a tail is carried: the new cur is [tail, s]
        have hovnat : 1 ≤ ov.toNat := by omega
        have hovle : ov.toNat ≤ (mkChunkText cur).length := by
          have : ((mkChunkText cur).length : ℤ) > ov := htl.2
          omega
        have htlne : takeRightStr ov.toNat (mkChunkText cur) ≠ "" :=
          takeRightStr_ne_empty hovnat hovle
        have htllen : (takeRightStr ov.toNat (mkChunkText cur)).length = ov.toNat :=
          takeRightStr_length hovle
        rw [if_pos htl, if_neg htlne] at hc
        have hjoin2 : (joinSpaceChars
            (([takeRightStr ov.toNat (mkChunkText cur)] ++ [s]).map String.data)).length =
            ov.toNat + 1 + s.length := by
          show ((takeRightStr ov.toNat (mkChunkText cur)).data ++ ' ' :: s.data).length = _
          simp only [List.length_append, List.length_cons]
          have h1 : (takeRightStr ov.toNat (mkChunkText cur)).data.length = ov.toNat := htllen
          have h2 : s.data.length = s.length := rfl
          omega
        refine ih _ _ _ _ _ hrest hclosed (Or.inr ⟨?_, Or.inr ⟨s, hsS, ?_⟩⟩) c hc
        · show (joinSpaceChars
            (([takeRightStr ov.toNat (mkChunkText cur)] ++ [s]).map String.data)).length ≤
            (takeRightStr ov.toNat (mkChunkText cur)).length + (s.length + 1)
          rw [hjoin2, htllen]
          omega
        · show ((mkChunkText ([takeRightStr ov.toNat (mkChunkText cur)] ++ [s])).length : ℤ) ≤
            max ov 0 + 1 + (s.length : ℤ)
          have hb := mkChunkText_length_le ([takeRightStr ov.toNat (mkChunkText cur)] ++ [s])
          rw [hjoin2] at hb
          omega
      · -- no tail is carried: the new cur is [s]
        rw [if_neg htl] at hc
        refine ih _ _ _ _ _ hrest hclosed (Or.inr ⟨?_, Or.inr ⟨s, hsS, ?_⟩⟩) c hc
        · show (joinSpaceChars (([] ++ [s]).map String.data)).length ≤
            ("" : String).length + (s.length + 1)
          show (joinSpaceChars ([s].map String.data)).length ≤ 0 + (s.length + 1)
          rw [hjs]
          omega
        · show ((mkChunkText ([] ++ [s])).length : ℤ) ≤ max ov 0 + 1 + (s.length : ℤ)
          show ((mkChunkText [s]).length : ℤ) ≤ max ov 0 + 1 + (s.length : ℤ)
          omega
    · next hcond =>
      refine ih _ _ _ _ _ hrest hchunks ?_ c hc
      rcases hcur with hcur | ⟨hjoin, _⟩
      · subst hcur
        refine Or.inr ⟨?_, Or.inr ⟨s, hsS, ?_⟩⟩
        · show (joinSpaceChars ([s].map String.data)).length ≤ cl + (s.length + 1)
          rw [hjs]
          omega
        · show ((mkChunkText ([] ++ [s])).length : ℤ) ≤ max ov 0 + 1 + (s.length : ℤ)
          show ((mkChunkText [s]).length : ℤ) ≤ max ov 0 + 1 + (s.length : ℤ)
          omega
      · by_cases hcne : cur = []
        · subst hcne
          refine Or.inr ⟨?_, Or.inr ⟨s, hsS, ?_⟩⟩
          · show (joinSpaceChars ([s].map String.data)).length ≤ cl + (s.length + 1)
            rw [hjs]
            omega
          · show ((mkChunkText ([] ++ [s])).length : ℤ) ≤ max ov 0 + 1 + (s.length : ℤ)
            show ((mkChunkText [s]).length : ℤ) ≤ max ov 0 + 1 + (s.length : ℤ)
            omega
        · have hle : (cl : ℤ) + ((s.length + 1 : ℕ) : ℤ) ≤ mc := by
            rcases not_and_or.1 hcond with h1 | h1
            · exact absurd (by simpa [List.isEmpty_iff] using hcne) (by simpa using h1)
            · omega
          refine Or.inr ⟨?_, Or.inl (by push_cast at hle ⊢; omega)⟩
          have hmape : cur.map String.data ≠ [] := by
            simpa using hcne
          show (joinSpaceChars ((cur ++ [s]).map String.data)).length ≤ cl + (s.length + 1)
          rw [List.map_append]
          have : (cur.map String.data) ++ [s].map String.data =
              (cur.map String.data) ++ [s.data] := rfl
          rw [this, joinSpace_concat _ _ hmape]
          simp only [List.length_append, List.length_cons]
          have h2 : s.data.length = s.length := rfl
          omega

/-- C3 (counterexample): with `max_chars = 10` and `overlap = 8`, the
second chunk of this text has 19 characters — more than `max_chars` — yet
it is not a single sentence: it is an overlap tail glued to one sentence
(the loop re-checks the budget only when the next sentence arrives). -/
theorem chunk_len_bound_cex :
    chunk_by_chars "aaaa bbbb. cccc dddd. e." 10 8 =
      [⟨"aaaa bbbb.", 0, 10⟩, ⟨"aa bbbb. cccc dddd.", 3, 22⟩,
       ⟨"cc dddd. e.", 14, 25⟩] ∧
    split_sentences "aaaa bbbb. cccc dddd. e." =
      ["aaaa bbbb.", "cccc dddd.", "e."] ∧
    ¬ ((("aa bbbb. cccc dddd." : String).length : ℤ) ≤ 10 ∨
        ("aa bbbb. cccc dddd." : String) ∈
          split_sentences "aaaa bbbb. cccc dddd. e.") := by
  decide

/-- C3 (amended): every chunk produced by `chunk_by_chars` has text of
length at most `max_chars`, except a chunk whose sentence content is a
single sentence `s` (possibly preceded by a carried overlap tail); such a
chunk's length is bounded by `max(overlap, 0) + 1 + len(s)` instead. -/
theorem chunk_len_bound (text : String) (mc ov : ℤ) :
    ∀ c ∈ chunk_by_chars text mc ov,
      (c.text.length : ℤ) ≤ mc ∨
      ∃ s ∈ split_sentences text,
        (c.text.length : ℤ) ≤ max ov 0 + 1 + (s.length : ℤ) := by
  intro c hc
  unfold chunk_by_chars at hc
  split at hc
  · simp at hc
  · exact chunkLoop_len mc ov (split_sentences text) (split_sentences text)
      [] [] 0 0 0 (fun _ h => h) (by simp) (Or.inl rfl) c hc

/-- C3 (witness): the bound evaluated on the single chunk of `"Hi."`. -/
theorem chunk_len_bound_w :
    ((("Hi." : String).length : ℤ) ≤ 10 ∨
      ∃ s ∈ split_sentences "Hi.",
        ((("Hi." : String).length : ℤ) ≤ max 0 0 + 1 + (s.length : ℤ))) :=
  chunk_len_bound "Hi." 10 0 ⟨"Hi.", 0, 3⟩ (by decide)

/-! ## C4: overlap carry-over between consecutive chunks -/

theorem lstrip_ne_nil_iff (l : List Char) :
    lstripChars l ≠ [] ↔ ∃ c ∈ l, ¬ pyIsSpace c := by
  unfold lstripChars
  rw [Ne, List.dropWhile_eq_nil_iff]
  push_neg
  simp

theorem rstrip_ne_nil_iff (l : List Char) :
    rstripChars l ≠ [] ↔ ∃ c ∈ l, ¬ pyIsSpace c := by
  rw [rstripChars_eq, Ne, List.rdropWhile_eq_nil_iff]
  push_neg
  simp

theorem lstrip_append_of_ne {u : List Char} (v : List Char)
    (h : lstripChars u ≠ []) : lstripChars (u ++ v) = lstripChars u ++ v := by
  unfold lstripChars at *
  rw [List.dropWhile_append, if_neg (by simpa [List.isEmpty_iff] using h)]

theorem rstrip_append (u v : List Char) :
    rstripChars (u ++ v) =
      if rstripChars v = [] then rstripChars u else u ++ rstripChars v := by
  unfold rstripChars
  rw [List.reverse_append, List.dropWhile_append]
  by_cases hv : (v.reverse.dropWhile pyIsSpace) = []
  · rw [if_pos (by simpa [List.isEmpty_iff] using hv),
      if_pos (by simpa using hv)]
  · rw [if_neg (by simpa [List.isEmpty_iff] using hv),
      if_neg (by simpa using hv)]
    simp

theorem stripPre_extend {p u : List Char} (v : List Char)
    (h : p <+: stripChars u) : p <+: stripChars (u ++ v) := by
  by_cases hu : lstripChars u = []
  · have hsu : stripChars u = [] := by
      rw [stripChars, hu]; rfl
    rw [hsu] at h
    have hp : p = [] := List.prefix_nil.1 h
    simp [hp]
  · rw [stripChars, lstrip_append_of_ne v hu, rstrip_append]
    split
    · exact h
    · have hsp : stripChars u <+: lstripChars u := by
        rw [stripChars, rstripChars_eq]
        exact List.rdropWhile_prefix _ _
      exact h.trans (hsp.trans (List.prefix_append _ _))

theorem stripPre_tail {tl s : List Char} (htl : ∃ c ∈ tl, ¬ pyIsSpace c)
    (hs : ∃ c ∈ s, ¬ pyIsSpace c) :
    lstripChars tl <+: stripChars (tl ++ ' ' :: s) := by
  have hlne : lstripChars tl ≠ [] := (lstrip_ne_nil_iff tl).2 htl
  have hrs : rstripChars (' ' :: s) ≠ [] := by
    obtain ⟨c, hc, hcs⟩ := hs
    exact (rstrip_ne_nil_iff _).2 ⟨c, by simp [hc], hcs⟩
  rw [stripChars, lstrip_append_of_ne _ hlne, rstrip_append, if_neg hrs]
  exact List.prefix_append _ _

theorem mkText_extend {pre : List Char} (cur : List String) (s : String)
    (hcur : cur ≠ []) (h : pre <+: (mkChunkText cur).data) :
    pre <+: (mkChunkText (cur ++ [s])).data := by
  have hmap : cur.map String.data ≠ [] := by simpa using hcur
  show pre <+: stripChars (joinSpaceChars ((cur ++ [s]).map String.data))
  rw [List.map_append]
  have h2 : (cur.map String.data) ++ ([s].map String.data) =
      (cur.map String.data) ++ [s.data] := rfl
  rw [h2, joinSpace_concat _ _ hmap]
  exact stripPre_extend (' ' :: s.data) h

theorem split_sentences_nonspace (text : String) :
    ∀ s ∈ split_sentences text, ∃ c ∈ s.data, ¬ pyIsSpace c := by
  intro s hs
  simp only [split_sentences] at hs
  split at hs
  · simp at hs
  · obtain ⟨hmem, hne⟩ := List.mem_filter.1 hs
    obtain ⟨p, hp, heq⟩ := List.mem_map.1 hmem
    subst heq
    have hne2 : pyStrip ⟨p⟩ ≠ "" := by simpa using hne
    have hdne : stripChars p ≠ [] := by
      intro hcon
      apply hne2
      show (⟨stripChars p⟩ : String) = ""
      rw [hcon]
    cases hq : stripChars p with
    | nil => exact absurd hq hdne
    | cons c cs =>
      refine ⟨c, ?_, stripChars_first hq⟩
      show c ∈ stripChars p
      rw [hq]; simp

theorem stripChars_getLast?_not_space {l : List Char} (h : stripChars l ≠ []) :
    ∃ c, (stripChars l).getLast? = some c ∧ ¬ pyIsSpace c := by
  refine ⟨(stripChars l).getLast h, List.getLast?_eq_getLast _ h, ?_⟩
  have h2 : List.rdropWhile pyIsSpace (lstripChars l) ≠ [] := by
    rw [← rstripChars_eq]; exact h
  exact List.rdropWhile_last_not pyIsSpace (lstripChars l) h2

theorem getLast?_drop_of_ne {l : List Char} {k : ℕ} (h : l.drop k ≠ []) :
    (l.drop k).getLast? = l.getLast? := by
  obtain ⟨w, hw⟩ := List.drop_suffix k l
  cases hx : (l.drop k).getLast? with
  | none => exact absurd (List.getLast?_eq_none_iff.1 hx) h
  | some a =>
    rw [← hw, List.getLast?_append, hx]
    rfl

theorem mem_of_getLast?_eq {l : List Char} {c : Char} (h : l.getLast? = some c) :
    c ∈ l := by
  have h2 : c ∈ l.getLast? := by rw [h]; rfl
  obtain ⟨hne, heq⟩ := List.mem_getLast?_eq_getLast h2
  rw [heq]
  exact List.getLast_mem hne

theorem chunkLoop_chain (mc ov : ℤ) (hov : 0 < ov) (S : List String)
    (hS : ∀ u ∈ S, ∃ c ∈ u.data, ¬ pyIsSpace c) :
    ∀ (sents : List String) (chunks : List Chunk) (cur : List String)
      (cl : ℕ) (st : ℤ) (pos : ℕ),
      (∀ u ∈ sents, u ∈ S) →
      List.Chain' (fun a b => ov < (a.text.length : ℤ) →
        lstripChars ((takeRightStr ov.toNat a.text).data) <+: b.text.data) chunks →
      (∀ x ∈ chunks.getLast?, cur ≠ [] →
        ov < (x.text.length : ℤ) →
        lstripChars ((takeRightStr ov.toNat x.text).data) <+: (mkChunkText cur).data) →
      (cur = [] → chunks = []) →
      List.Chain' (fun a b => ov < (a.text.length : ℤ) →
        lstripChars ((takeRightStr ov.toNat a.text).data) <+: b.text.data)
        (chunkLoop mc ov sents chunks cur cl st pos) := by
  intro sents
  induction sents with
  | nil =>
    intro chunks cur cl st pos _ hchain hlink _
    simp only [chunkLoop]
    split
    · exact hchain
    · next hne =>
      have hcur : cur ≠ [] := by simpa [List.isEmpty_iff] using hne
      rw [List.chain'_append]
      refine ⟨hchain, List.chain'_singleton _, ?_⟩
      intro x hx y hy
      have hy2 : y = ⟨mkChunkText cur, st, st + ((mkChunkText cur).length : ℤ)⟩ := by
        have := hy
        simp at this
        exact this.symm
      subst hy2
      exact hlink x hx hcur
  | cons s rest ih =>
    intro chunks cur cl st pos hsents hchain hlink hcur0
    have hsS : s ∈ S := hsents s (by simp)
    have hrest : ∀ u ∈ rest, u ∈ S := fun u hu => hsents u (by simp [hu])
    simp only [chunkLoop]
    split
    · next hcond =>
      have hcur : cur ≠ [] := by simpa [List.isEmpty_iff] using hcond.1
      have hchain2 : List.Chain' (fun a b => ov < (a.text.length : ℤ) →
          lstripChars ((takeRightStr ov.toNat a.text).data) <+: b.text.data)
          (chunks ++ [⟨mkChunkText cur, st, st + ((mkChunkText cur).length : ℤ)⟩]) := by
        rw [List.chain'_append]
        refine ⟨hchain, List.chain'_singleton _, ?_⟩
        intro x hx y hy
        have hy2 : y = ⟨mkChunkText cur, st, st + ((mkChunkText cur).length : ℤ)⟩ := by
          have := hy
          simp at this
          exact this.symm
        subst hy2
        exact hlink x hx hcur
      by_cases htl : ov > 0 ∧ (((mkChunkText cur).length : ℤ) > ov)
      · -- a tail is carried into the next chunk
        have hovnat : 1 ≤ ov.toNat := by omega
        have hovle : ov.toNat ≤ (mkChunkText cur).length := by
          have := htl.2; omega
        have htlne : takeRightStr ov.toNat (mkChunkText cur) ≠ "" :=
          takeRightStr_ne_empty hovnat hovle
        rw [if_pos htl, if_neg htlne]
        refine ih _ _ _ _ _ hrest hchain2 ?_ (by simp)
        intro x hx _ hxlen
        rw [List.getLast?_concat] at hx
        have hx2 : x = ⟨mkChunkText cur, st, st + ((mkChunkText cur).length : ℤ)⟩ := by
          have := hx
          simp at this
          exact this.symm
        subst hx2
        have hTne : (mkChunkText cur).data ≠ [] := by
          intro hcon
          have hz : (mkChunkText cur).length = 0 := by
            show (mkChunkText cur).data.length = 0
            rw [hcon]
            rfl
          simp only at hxlen
          omega
        obtain ⟨c, hc, hcs⟩ :=
          stripChars_getLast?_not_space
            (show stripChars (joinSpaceChars (cur.map String.data)) ≠ [] from hTne)
        have htldne : (takeRightStr ov.toNat (mkChunkText cur)).data ≠ [] := by
          intro hcon
          apply htlne
          show (⟨(takeRightStr ov.toNat (mkChunkText cur)).data⟩ : String) = ""
          rw [hcon]
        have htlast : (takeRightStr ov.toNat (mkChunkText cur)).data.getLast? = some c := by
          show ((mkChunkText cur).data.drop
            ((mkChunkText cur).data.length - ov.toNat)).getLast? = some c
          rw [getLast?_drop_of_ne htldne]
          exact hc
        have htlnonspace : ∃ d ∈ (takeRightStr ov.toNat (mkChunkText cur)).data,
            ¬ pyIsSpace d := ⟨c, mem_of_getLast?_eq htlast, hcs⟩
        show lstripChars ((takeRightStr ov.toNat (mkChunkText cur)).data) <+:
          stripChars ((takeRightStr ov.toNat (mkChunkText cur)).data ++ ' ' :: s.data)
        exact stripPre_tail htlnonspace (hS s hsS)
      · -- no tail: the next chunk starts fresh, the hypothesis is vacuous
        rw [if_neg htl]
        refine ih _ _ _ _ _ hrest hchain2 ?_ (by simp)
        intro x hx _ hxlen
        rw [List.getLast?_concat] at hx
        have hx2 : x = ⟨mkChunkText cur, st, st + ((mkChunkText cur).length : ℤ)⟩ := by
          have := hx
          simp at this
          exact this.symm
        subst hx2
        simp only at hxlen
        exact absurd ⟨hov, hxlen⟩ htl
    · -- a sentence is appended to the current chunk: prefixes survive
      refine ih _ _ _ _ _ hrest hchain ?_ (by simp)
      intro x hx _ hxlen
      by_cases hce : cur = []
      · rw [hcur0 hce] at hx
        simp at hx
      · exact mkText_extend cur s hce (hlink x hx hce hxlen)

/-- C4 (counterexample): with `overlap = 3` this text produces two chunks,
the first of length exactly `overlap`; the code carries a tail only when
the closed text is strictly longer than `overlap`, so the second chunk
does not open with the last `min(overlap, len)` = 3 characters (`"aa."`)
of the first. -/
theorem chunk_overlap_cex :
    chunk_by_chars "aa. bbbbb." 3 3 = [⟨"aa.", 0, 3⟩, ⟨"bbbbb.", 4, 10⟩] ∧
    ¬ ("aa." : String).data <+: ("bbbbb." : String).data := by
  decide

/-- C4 (amended): for `overlap > 0`, whenever a closed chunk's text is
strictly longer than `overlap` characters, the next chunk's text opens
with the last `overlap` characters of the closed chunk's text stripped of
leading whitespace (the tail is glued with `" ".join(...).strip()`); when
the closed text has at most `overlap` characters no tail is carried. -/
theorem chunk_overlap_chain (text : String) (mc ov : ℤ) (hov : 0 < ov) :
    List.Chain' (fun a b => ov < (a.text.length : ℤ) →
      lstripChars ((takeRightStr ov.toNat a.text).data) <+: b.text.data)
      (chunk_by_chars text mc ov) := by
  unfold chunk_by_chars
  split
  · simp
  · exact chunkLoop_chain mc ov hov (split_sentences text)
      (split_sentences_nonspace text) (split_sentences text) [] [] 0 0 0
      (fun _ h => h) (by simp) (by simp) (fun _ => rfl)

/-- C4 (witness): the overlap-carry relation evaluated on a three-chunk
run with `max_chars = 10`, `overlap = 8`. -/
theorem chunk_overlap_chain_w :
    List.Chain' (fun a b => (8 : ℤ) < (a.text.length : ℤ) →
      lstripChars ((takeRightStr (8 : ℤ).toNat a.text).data) <+: b.text.data)
      (chunk_by_chars "aaaa bbbb. cccc dddd. e." 10 8) :=
  chunk_overlap_chain "aaaa bbbb. cccc dddd. e." 10 8 (by decide)

/-! ## C6: BM25 term-frequency monotonicity -/

theorem bmDenom_lb (dl avg : ℝ) (hdl : 0 ≤ dl) :
    (0.3 : ℝ) ≤ bmDenom 1.2 0.75 dl avg := by
  unfold bmDenom
  have hM : (0 : ℝ) < max avg 1e-9 := lt_of_lt_of_le (by norm_num) (le_max_right _ _)
  have h2 : 0 ≤ dl / max avg 1e-9 := div_nonneg hdl (le_of_lt hM)
  nlinarith

theorem idfVal_nonneg (N n : ℕ) (h : n ≤ N) : 0 ≤ idfVal N n := by
  unfold idfVal
  apply Real.log_nonneg
  have h1 : (0 : ℝ) ≤ (N : ℝ) - (n : ℝ) + 0.5 := by
    have : (n : ℝ) ≤ (N : ℝ) := by exact_mod_cast h
    linarith
  have h2 : (0 : ℝ) < (n : ℝ) + 0.5 := by positivity
  have h3 : (0 : ℝ) ≤ ((N : ℝ) - (n : ℝ) + 0.5) / ((n : ℝ) + 0.5) :=
    div_nonneg h1 (le_of_lt h2)
  linarith

theorem bm_denom_key (c dl avg avg' : ℝ) (hc : 1 ≤ c) (hcdl : c ≤ dl)
    (havg : avg ≤ avg') :
    c * bmDenom 1.2 0.75 (dl + 1) avg' ≤ (c + 1) * bmDenom 1.2 0.75 dl avg := by
  unfold bmDenom
  set m := max avg 1e-9 with hm_def
  set m' := max avg' 1e-9 with hm'_def
  have hm : (0 : ℝ) < m := lt_of_lt_of_le (by norm_num) (le_max_right _ _)
  have hmm : m ≤ m' := max_le_max havg (le_refl _)
  have hm' : (0 : ℝ) < m' := lt_of_lt_of_le hm hmm
  have h1 : c * (dl + 1) * m ≤ (c + 1) * dl * m' := by
    have e0 : (0 : ℝ) ≤ (c + 1) * dl := by nlinarith
    have e1 : c * (dl + 1) * m ≤ (c + 1) * dl * m := by nlinarith
    have e2 : ((c + 1) * dl) * m ≤ ((c + 1) * dl) * m' :=
      mul_le_mul_of_nonneg_left hmm e0
    nlinarith
  have h2 : c * ((dl + 1) / m') ≤ (c + 1) * (dl / m) := by
    rw [← mul_div_assoc, ← mul_div_assoc, div_le_div_iff hm' hm]
    nlinarith
  nlinarith

theorem bm_frac_mono (c d d' : ℝ) (hc : 1 ≤ c) (hd : 0 < d) (hd' : 0 ≤ d')
    (hkey : c * d' ≤ (c + 1) * d) :
    c * (1.2 + 1) / (c + d) ≤ (c + 1) * (1.2 + 1) / (c + 1 + d') := by
  rw [div_le_div_iff (by linarith) (by linarith)]
  nlinarith

theorem bm_term_mono (idfv : ℝ) (hidf : 0 ≤ idfv) (c dl avg avg' : ℝ)
    (hc : 1 ≤ c) (hcdl : c ≤ dl) (havg : avg ≤ avg') :
    idfv * (c * (1.2 + 1)) / (c + bmDenom 1.2 0.75 dl avg) ≤
    idfv * ((c + 1) * (1.2 + 1)) / (c + 1 + bmDenom 1.2 0.75 (dl + 1) avg') := by
  have hden : (0.3 : ℝ) ≤ bmDenom 1.2 0.75 dl avg := bmDenom_lb dl avg (by linarith)
  have hden' : (0.3 : ℝ) ≤ bmDenom 1.2 0.75 (dl + 1) avg' :=
    bmDenom_lb (dl + 1) avg' (by linarith)
  have hkey := bm_denom_key c dl avg avg' hc hcdl havg
  have hfrac := bm_frac_mono c (bmDenom 1.2 0.75 dl avg)
    (bmDenom 1.2 0.75 (dl + 1) avg') hc (by linarith) (by linarith) hkey
  have e1 : idfv * (c * (1.2 + 1)) / (c + bmDenom 1.2 0.75 dl avg) =
      idfv * (c * (1.2 + 1) / (c + bmDenom 1.2 0.75 dl avg)) := by ring
  have e2 : idfv * ((c + 1) * (1.2 + 1)) / (c + 1 + bmDenom 1.2 0.75 (dl + 1) avg') =
      idfv * ((c + 1) * (1.2 + 1) / (c + 1 + bmDenom 1.2 0.75 (dl + 1) avg')) := by
    ring
  rw [e1, e2]
  exact mul_le_mul_of_nonneg_left hfrac hidf

theorem getD_map_lt {α β : Type} (f : α → β) (l : List α) (i : ℕ) (d : β)
    (d0 : α) (hi : i < l.length) : (l.map f).getD i d = f (l.getD i d0) := by
  rw [List.getD_eq_getElem?_getD, List.getD_eq_getElem?_getD, List.getElem?_map,
    List.getElem?_eq_getElem hi]
  rfl

theorem getD_set_self {α : Type} (l : List α) (i : ℕ) (a d : α)
    (hi : i < l.length) : (l.set i a).getD i d = a := by
  rw [List.getD_eq_getElem?_getD, List.getElem?_set_self (by simpa using hi)]
  rfl

theorem sum_map_length_set : ∀ (D : List (List String)) (i : ℕ) (x : List String),
    i < D.length →
    ((D.set i x).map List.length).sum + (D.getD i []).length =
      (D.map List.length).sum + x.length := by
  intro D
  induction D with
  | nil => intro i x h; simp at h
  | cons dhd dtl ih =>
    intro i x h
    cases i with
    | zero =>
      simp only [List.set, List.map_cons, List.sum_cons, List.getD_cons_zero]
      omega
    | succ n =>
      simp only [List.set, List.map_cons, List.sum_cons, List.getD_cons_succ]
      have := ih n x (by simpa using h)
      omega

theorem dfCount_cons (x : List String) (rest : List (List String)) (t : String) :
    dfCount (x :: rest) t = (if t ∈ x then 1 else 0) + dfCount rest t := by
  by_cases hx : t ∈ x
  · simp [dfCount, List.filter_cons, hx]
    omega
  · simp [dfCount, List.filter_cons, hx]

theorem dfCount_le_length (D : List (List String)) (t : String) :
    dfCount D t ≤ D.length := List.length_filter_le _ _

theorem dfCount_set_cons (t : String) : ∀ (D : List (List String)) (i : ℕ),
    i < D.length →
    dfCount (D.set i (t :: D.getD i [])) t =
      if t ∈ D.getD i [] then dfCount D t else dfCount D t + 1 := by
  intro D
  induction D with
  | nil => intro i h; simp at h
  | cons dhd dtl ih =>
    intro i h
    cases i with
    | zero =>
      have hset : (dhd :: dtl).set 0 (t :: (dhd :: dtl).getD 0 []) =
          (t :: dhd) :: dtl := by simp
      rw [hset, dfCount_cons, dfCount_cons, List.getD_cons_zero]
      have hmem : t ∈ t :: dhd := by simp
      by_cases hd : t ∈ dhd
      · rw [if_pos hmem, if_pos hd, if_pos hd]
      · rw [if_pos hmem, if_neg hd, if_neg hd]
        omega
    | succ n =>
      have hlt : n < dtl.length := by simpa using h
      have hset : (dhd :: dtl).set (n + 1) (t :: (dhd :: dtl).getD (n + 1) []) =
          dhd :: dtl.set n (t :: dtl.getD n []) := by
        simp [List.getD_cons_succ]
      rw [hset, dfCount_cons, dfCount_cons, ih n hlt, List.getD_cons_succ]
      split_ifs <;> omega

/-- C6 (amended): for a query consisting solely of occurrences of one term
`t`, adding an occurrence of `t` to document `i` (all other documents and
inputs fixed, default `k1 = 1.2`, `b = 0.75`) never decreases document
`i`'s BM25 score. -/
theorem bm25_single_term_mono (t : String) (qt : List String)
    (hq : ∀ u ∈ qt, u = t) (D : List (List String)) (i : ℕ) (hi : i < D.length) :
    (bm25_scores_tokens qt D 1.2 0.75).getD i 0 ≤
      (bm25_scores_tokens qt (D.set i (t :: D.getD i [])) 1.2 0.75).getD i 0 := by
  have hN : 1 ≤ D.length := by omega
  have hlen' : (D.set i (t :: D.getD i [])).length = D.length := by simp
  have hi' : i < (D.set i (t :: D.getD i [])).length := by omega
  have hmax : max D.length 1 = D.length := max_eq_left hN
  have hmax' : max (D.set i (t :: D.getD i [])).length 1 = D.length := by
    rw [hlen']; exact max_eq_left hN
  have hsum' : ((D.set i (t :: D.getD i [])).map List.length).sum =
      (D.map List.length).sum + 1 := by
    have h := sum_map_length_set D i (t :: D.getD i []) hi
    simp only [List.length_cons] at h
    omega
  have havg : ((D.map List.length).sum : ℝ) / ((max D.length 1 : ℕ) : ℝ) ≤
      ((((D.set i (t :: D.getD i [])).map List.length).sum : ℕ) : ℝ) /
        ((max (D.set i (t :: D.getD i [])).length 1 : ℕ) : ℝ) := by
    rw [hsum', hmax, hmax']
    have hNpos : (0 : ℝ) < (D.length : ℝ) := by
      exact_mod_cast Nat.lt_of_lt_of_le Nat.zero_lt_one hN
    rw [div_le_div_iff_of_pos_right hNpos]
    push_cast
    linarith
  simp only [bm25_scores_tokens]
  rw [if_neg (by omega), if_neg (by omega)]
  rw [getD_map_lt _ _ _ _ [] hi, getD_map_lt _ _ _ _ [] hi',
    getD_set_self _ _ _ _ hi]
  unfold bmDocScore
  apply List.sum_le_sum
  intro u hu
  rw [hq u hu]
  have hcnt : tfCount (t :: D.getD i []) t = tfCount (D.getD i []) t + 1 := by
    show (t :: D.getD i []).count t = (D.getD i []).count t + 1
    exact List.count_cons_self t _
  have hlc : (t :: D.getD i []).length = (D.getD i []).length + 1 := rfl
  rw [hcnt, hlc]
  rw [if_neg (by omega : ¬ (tfCount (D.getD i []) t + 1 = 0))]
  beta_reduce
  by_cases hc0 : tfCount (D.getD i []) t = 0
  · rw [if_pos hc0]
    have hidf : 0 ≤ idfVal (D.set i (t :: D.getD i [])).length
        (dfCount (D.set i (t :: D.getD i [])) t) :=
      idfVal_nonneg _ _ (dfCount_le_length _ _)
    have hden := bmDenom_lb (((D.getD i []).length + 1 : ℕ) : ℝ)
      (((((D.set i (t :: D.getD i [])).map List.length).sum : ℕ) : ℝ) /
        ((max (D.set i (t :: D.getD i [])).length 1 : ℕ) : ℝ)) (by positivity)
    apply div_nonneg
    · apply mul_nonneg hidf
      positivity
    · have h1 : (0 : ℝ) ≤ ((tfCount (D.getD i []) t + 1 : ℕ) : ℝ) := by positivity
      linarith
  · rw [if_neg hc0]
    have hmem : t ∈ D.getD i [] := by
      by_contra hcon
      exact hc0 (List.count_eq_zero_of_not_mem hcon)
    have hdfeq : dfCount (D.set i (t :: D.getD i [])) t = dfCount D t := by
      rw [dfCount_set_cons t D i hi, if_pos hmem]
    rw [hlen', hdfeq]
    rw [show ((tfCount (D.getD i []) t + 1 : ℕ) : ℝ) =
        ((tfCount (D.getD i []) t : ℕ) : ℝ) + 1 from by push_cast; ring]
    rw [show (((D.getD i []).length + 1 : ℕ) : ℝ) =
        (((D.getD i []).length : ℕ) : ℝ) + 1 from by push_cast; ring]
    have hidf : 0 ≤ idfVal D.length (dfCount D t) :=
      idfVal_nonneg _ _ (dfCount_le_length _ _)
    have hc1 : (1 : ℝ) ≤ ((tfCount (D.getD i []) t : ℕ) : ℝ) := by
      have h2 : 1 ≤ tfCount (D.getD i []) t := by omega
      exact_mod_cast h2
    have hcdl : ((tfCount (D.getD i []) t : ℕ) : ℝ) ≤
        (((D.getD i []).length : ℕ) : ℝ) := by
      have h2 : (D.getD i []).count t ≤ (D.getD i []).length :=
        List.count_le_length t (D.getD i [])
      exact_mod_cast h2
    rw [hlen'] at havg
    exact bm_term_mono (idfVal D.length (dfCount D t)) hidf
      ((tfCount (D.getD i []) t : ℕ) : ℝ) (((D.getD i []).length : ℕ) : ℝ)
      ((((D.map List.length).sum : ℕ) : ℝ) / ((max D.length 1 : ℕ) : ℝ))
      (((((D.set i (t :: D.getD i [])).map List.length).sum : ℕ) : ℝ) /
        ((max D.length 1 : ℕ) : ℝ))
      hc1 hcdl havg

/-- C6 (witness): the amended monotonicity evaluated on a one-document,
one-token corpus. -/
theorem bm25_single_term_mono_w :
    (bm25_scores_tokens ["a"] [["a"]] 1.2 0.75).getD 0 0 ≤
      (bm25_scores_tokens ["a"]
        ([["a"]].set 0 ("a" :: [["a"]].getD 0 [])) 1.2 0.75).getD 0 0 :=
  bm25_single_term_mono "a" ["a"] (by decide) [["a"]] 0 (by decide)

theorem bm25_cex_before :
    (bm25_scores "t u u u u u u u u" ["t t t t u", "x"]).getD 0 0 =
      Real.log 2 * (1584 / 203) := by
  have htq : tokenize_lower "t u u u u u u u u" =
      ["t","u","u","u","u","u","u","u","u"] := by decide
  have htd : (["t t t t u", "x"] : List String).map tokenize_lower =
      [["t","t","t","t","u"], ["x"]] := by decide
  unfold bm25_scores
  rw [htq, htd]
  simp only [bm25_scores_tokens]
  rw [if_neg (by norm_num)]
  norm_num
  have hdft : dfCount [["t","t","t","t","u"], ["x"]] "t" = 1 := by decide
  have hdfu : dfCount [["t","t","t","t","u"], ["x"]] "u" = 1 := by decide
  have htf : tfCount ["t","t","t","t","u"] "t" = 4 := by decide
  have huf : tfCount ["t","t","t","t","u"] "u" = 1 := by decide
  have hidf : idfVal 2 1 = Real.log 2 := by
    unfold idfVal
    norm_num
  have hden : bmDenom (6/5) (3/4) 5 3 = 9/5 := by
    unfold bmDenom
    rw [max_eq_left (by norm_num : (1e-9 : ℝ) ≤ 3)]
    norm_num
  simp only [bmDocScore, List.map_cons, List.map_nil, List.sum_cons, List.sum_nil,
    htf, huf, hdft, hdfu, hidf, hden]
  norm_num
  ring

theorem bm25_cex_after :
    (bm25_scores "t u u u u u u u u" ["t t t t t u", "x"]).getD 0 0 =
      Real.log 2 * (743358 / 95321) := by
  have htq : tokenize_lower "t u u u u u u u u" =
      ["t","u","u","u","u","u","u","u","u"] := by decide
  have htd : (["t t t t t u", "x"] : List String).map tokenize_lower =
      [["t","t","t","t","t","u"], ["x"]] := by decide
  unfold bm25_scores
  rw [htq, htd]
  simp only [bm25_scores_tokens]
  rw [if_neg (by norm_num)]
  norm_num
  have hdft : dfCount [["t","t","t","t","t","u"], ["x"]] "t" = 1 := by decide
  have hdfu : dfCount [["t","t","t","t","t","u"], ["x"]] "u" = 1 := by decide
  have htf : tfCount ["t","t","t","t","t","u"] "t" = 5 := by decide
  have huf : tfCount ["t","t","t","t","t","u"] "u" = 1 := by decide
  have hidf : idfVal 2 1 = Real.log 2 := by
    unfold idfVal
    norm_num
  have hden : bmDenom (6/5) (3/4) 6 (7/2) = 129/70 := by
    unfold bmDenom
    rw [max_eq_left (by norm_num : (1e-9 : ℝ) ≤ 7/2)]
    norm_num
  simp only [bmDocScore, List.map_cons, List.map_nil, List.sum_cons, List.sum_nil,
    htf, huf, hdft, hdfu, hidf, hden]
  norm_num
  ring

/-- C6 (counterexample): adding one occurrence of the query term `t` to
document 0 (all other documents and inputs fixed) strictly decreases
document 0's BM25 score: the longer document is penalised on the eight
`u` query tokens by the document-length normalization, outweighing the
gain on `t`. -/
theorem bm25_tf_mono_cex :
    (bm25_scores "t u u u u u u u u" ["t t t t t u", "x"]).getD 0 0 <
      (bm25_scores "t u u u u u u u u" ["t t t t u", "x"]).getD 0 0 := by
  rw [bm25_cex_after, bm25_cex_before]
  have hlog : 0 < Real.log 2 := Real.log_pos (by norm_num)
  rw [mul_lt_mul_left hlog]
  norm_num

end PubMedGPT
